import Mathlib

/-!
Verification of the `FixedSizeDescriptorSetsPool` core of `vulkano`.

A shallow embedding of `src/descriptor_set/fixed_size_pool.rs`: a pool of
descriptor sets that grows geometrically (seed capacity 3, saturating
doubling), hands sets out one at a time from the current chunk's reserve
queue, and recycles a set back to its origin chunk when the allocation is
dropped.

Modelling choices:
* `Arc<LocalPoolInner>` sharing is made explicit by a heap: a list of
  `LocalPoolInner` values indexed by chunk id; an `Arc` clone is a copy of
  the chunk id.
* A descriptor set handle is identified by the chunk that created it and its
  index in that chunk's batch.
* The external Vulkan calls (`UnsafeDescriptorPool::new` and
  `UnsafeDescriptorPool::alloc`) are driven by an environment trace of
  `CreateOutcome` values, one consumed per bulk-creation attempt.
* The `loop` in `LocalPool::alloc` is written with fuel; the top-level
  `LocalPool.alloc` supplies fuel `envs.length + 1`, which is always enough
  because every loop iteration that does not return consumes one outcome.
* Rust panics (`unreachable!`, `Option::unwrap` on `None`) are represented
  by a dedicated result (`AllocResult.unreachableBranch`) or by `none`.
-/

namespace Vulkano

/-- Largest value of a Rust `u32`. -/
def u32Max : Nat := 2 ^ 32 - 1

/-- Rust `u32` saturating multiplication by 2, as in
`self.next_capacity.saturating_mul(2)`. -/
def satMul2 (n : Nat) : Nat := min (n * 2) u32Max

/-- `OomError` (crate root): the error type returned by `LocalPool::alloc`. -/
inductive OomError where
  | outOfHostMemory
  | outOfDeviceMemory
deriving DecidableEq, Repr

/-- `DescriptorPoolAllocError` from `descriptor_set::pool`: the error type of
the underlying `UnsafeDescriptorPool::alloc`. -/
inductive DescriptorPoolAllocError where
  | outOfHostMemory
  | outOfDeviceMemory
  | fragmentedPool
  | outOfPoolMemory
deriving DecidableEq, Repr

/-- An `UnsafeDescriptorSet` handle, identified by the chunk that created it
and its index within that chunk's batch. -/
structure UnsafeDescriptorSet where
  chunkId : Nat
  idx : Nat
deriving DecidableEq, Repr

/-- `LocalPoolInner`: one Vulkan descriptor pool (`actual_pool`, held only to
keep the batch alive, so modelled by the recorded batch `capacity`) plus the
`reserve` queue (`SegQueue<UnsafeDescriptorSet>`) of currently unused sets.
The queue is FIFO: push appends at the back, pop takes the front. -/
structure LocalPoolInner where
  capacity : Nat
  reserve : List UnsafeDescriptorSet
deriving DecidableEq, Repr

/-- The heap of `Arc<LocalPoolInner>` values; a chunk id is an index into this
list, and a fresh chunk is appended at the end. -/
abbrev Heap := List LocalPoolInner

/-- Default used when dereferencing an invalid chunk id (never happens for
states produced by the pool's own operations). -/
def emptyChunk : LocalPoolInner := { capacity := 0, reserve := [] }

/-- Dereference an `Arc<LocalPoolInner>` (a chunk id) in the heap. -/
def getChunk (heap : Heap) (c : Nat) : LocalPoolInner :=
  heap.getD c emptyChunk

/-- `LocalPool`: the current chunk (an `Arc` modelled as a chunk id) and the
capacity to use for the next chunk. The `device` field is opaque and not
needed by any claim about `alloc`, so it is omitted. -/
structure LocalPool where
  current_pool : Option Nat
  next_capacity : Nat
deriving DecidableEq, Repr

/-- `LocalPoolAlloc`: one descriptor set on loan, holding an `Arc` clone of
its origin chunk (`pool`) and the set wrapped in an `Option` so `Drop` can
take it out. -/
structure LocalPoolAlloc where
  pool : Nat
  actual_alloc : Option UnsafeDescriptorSet
deriving DecidableEq, Repr

/-- Outcome of one external bulk-creation attempt inside `LocalPool::alloc`:
either `UnsafeDescriptorPool::new` fails with an `OomError`, or
`new_pool.alloc` fails with a `DescriptorPoolAllocError`, or both succeed. -/
inductive CreateOutcome where
  | newErr (e : OomError)
  | allocErr (e : DescriptorPoolAllocError)
  | success
deriving DecidableEq, Repr

/-- Result of `LocalPool::alloc`, together with the final heap and pool
state. `unreachableBranch` marks the two `unreachable!()` arms. -/
inductive AllocResult where
  | ok (a : LocalPoolAlloc) (heap : Heap) (p : LocalPool)
  | err (e : OomError) (heap : Heap) (p : LocalPool)
  | unreachableBranch
deriving DecidableEq, Repr

/-- The hot path of `LocalPool::alloc`: if `current_pool` is `Some`, try to
pop one set from its reserve. Returns the built `LocalPoolAlloc` (carrying an
`Arc` clone of the current chunk) and the updated heap. -/
def tryPop (heap : Heap) (p : LocalPool) : Option (LocalPoolAlloc × Heap) :=
  match p.current_pool with
  | none => none
  | some cid =>
    match (getChunk heap cid).reserve with
    | [] => none
    | s :: rest =>
      some ({ pool := cid, actual_alloc := some s },
            heap.set cid
              { capacity := (getChunk heap cid).capacity, reserve := rest })

/-- The batch of `cap` fresh sets produced by `new_pool.alloc` for chunk
`cid`, pushed into a fresh `SegQueue` in production order. -/
def freshSets (cid cap : Nat) : List UnsafeDescriptorSet :=
  (List.range cap).map fun i => { chunkId := cid, idx := i }

/-- The `loop` body of `LocalPool::alloc`, with explicit fuel. Each iteration
first tries the hot-path pop; otherwise it performs one bulk-creation attempt,
consuming the head of `envs`: on error it returns (state untouched), on
success it appends a fresh chunk of `next_capacity` sets, installs it as
current, doubles `next_capacity` (saturating), and loops. `none` means the
environment trace ran out (or fuel, which `LocalPool.alloc` makes
impossible). -/
def allocLoop : Nat → List CreateOutcome → Heap → LocalPool → Option AllocResult
  | 0, _, _, _ => none
  | fuel + 1, envs, heap, p =>
    match tryPop heap p with
    | some (a, heap') => some (.ok a heap' p)
    | none =>
      match envs with
      | [] => none
      | outcome :: rest =>
        match outcome with
        | .newErr e => some (.err e heap p)
        | .allocErr .outOfHostMemory => some (.err .outOfHostMemory heap p)
        | .allocErr .outOfDeviceMemory => some (.err .outOfDeviceMemory heap p)
        | .allocErr .fragmentedPool => some .unreachableBranch
        | .allocErr .outOfPoolMemory => some .unreachableBranch
        | .success =>
          let cid := heap.length
          let heap' := heap ++
            [{ capacity := p.next_capacity,
               reserve := freshSets cid p.next_capacity }]
          allocLoop fuel rest heap'
            { current_pool := some cid, next_capacity := satMul2 p.next_capacity }

/-- `LocalPool::alloc`. Fuel `envs.length + 1` suffices: an iteration either
returns or consumes one environment outcome. -/
def LocalPool.alloc (envs : List CreateOutcome) (heap : Heap) (p : LocalPool) :
    Option AllocResult :=
  allocLoop (envs.length + 1) envs heap p

/-- `Drop for LocalPoolAlloc`: `self.actual_alloc.take().unwrap()` then push
the set onto the origin chunk's reserve. `none` models the `unwrap` panic
when the slot is already empty. -/
def dropAlloc (heap : Heap) (a : LocalPoolAlloc) : Option Heap :=
  match a.actual_alloc with
  | none => none
  | some s =>
    some (heap.set a.pool
      { capacity := (getChunk heap a.pool).capacity,
        reserve := (getChunk heap a.pool).reserve ++ [s] })

/-- `DescriptorPoolAlloc::inner` for `LocalPoolAlloc`:
`self.actual_alloc.as_ref().unwrap()`; `none` models the panic. -/
def LocalPoolAlloc.innerSet (a : LocalPoolAlloc) : Option UnsafeDescriptorSet :=
  a.actual_alloc

/-- `FixedSizeDescriptorSetsPool`: the public wrapper, holding the layout
(opaque `Arc`, modelled as an id) and the `LocalPool`. -/
structure FixedSizeDescriptorSetsPool where
  layout : Nat
  pool : LocalPool
deriving DecidableEq, Repr

/-- `FixedSizeDescriptorSetsPool::new`: `next_capacity` seeded at 3, no
current chunk. -/
def FixedSizeDescriptorSetsPool.new (layout : Nat) : FixedSizeDescriptorSetsPool :=
  { layout, pool := { current_pool := none, next_capacity := 3 } }

/-- `derive(Clone)` on `FixedSizeDescriptorSetsPool` / `LocalPool`: every
field is cloned; cloning the `Option<Arc<LocalPoolInner>>` clones the `Arc`,
that is, copies the chunk id, so both pools share the same chunk. -/
def FixedSizeDescriptorSetsPool.clone (fsp : FixedSizeDescriptorSetsPool) :
    FixedSizeDescriptorSetsPool :=
  { layout := fsp.layout,
    pool := { current_pool := fsp.pool.current_pool,
              next_capacity := fsp.pool.next_capacity } }

/-! Trace semantics

A system state bundles the chunk heap, the pool, and the list of live
allocations. Operations are `alloc` (with its environment trace) and
`release i` (dropping the `i`-th live allocation). An operation that would
panic or whose environment trace is too short leaves the state unchanged;
the safety theorems show this never happens for release on a live
allocation. -/

/-- One external operation on the pool system. -/
inductive Op where
  | alloc (envs : List CreateOutcome)
  | release (i : Nat)
deriving DecidableEq, Repr

/-- The whole system: chunk heap, pool, and live allocations. -/
structure SysState where
  heap : Heap
  pool : LocalPool
  live : List LocalPoolAlloc
deriving DecidableEq, Repr

/-- The state right after `FixedSizeDescriptorSetsPool::new`. -/
def initState : SysState :=
  { heap := [], pool := (FixedSizeDescriptorSetsPool.new 0).pool, live := [] }

/-- Step one operation. -/
def stepOp (s : SysState) : Op → SysState
  | .alloc envs =>
    match LocalPool.alloc envs s.heap s.pool with
    | some (.ok a heap' p') => { heap := heap', pool := p', live := s.live ++ [a] }
    | some (.err _ heap' p') => { s with heap := heap', pool := p' }
    | _ => s
  | .release i =>
    match s.live.get? i with
    | none => s
    | some a =>
      match dropAlloc s.heap a with
      | none => s
      | some heap' => { s with heap := heap', live := s.live.eraseIdx i }

/-- Run a list of operations from the fresh-pool state. -/
def run (ops : List Op) : SysState := ops.foldl stepOp initState

/-- The capacity counter after `n` successful bulk creations:
`satMul2` iterated `n` times on the seed 3. -/
def capAfter : Nat → Nat
  | 0 => 3
  | n + 1 => satMul2 (capAfter n)

/-- The descriptor sets of chunk `c` currently held by live allocations. -/
def liveSetsOf (live : List LocalPoolAlloc) (c : Nat) : List UnsafeDescriptorSet :=
  live.filterMap fun a => if a.pool = c then a.actual_alloc else none

/-- Non-recursive characterization of one `LocalPool::alloc` call: at most one
bulk-creation attempt (inspecting only the head of `envs`) and at most two
pop attempts. `alloc_eq_allocOnce` shows `LocalPool.alloc` equals this
whenever `next_capacity` is positive. -/
def allocOnce (envs : List CreateOutcome) (heap : Heap) (p : LocalPool) :
    Option AllocResult :=
  match tryPop heap p with
  | some (a, heap') => some (.ok a heap' p)
  | none =>
    match envs with
    | [] => none
    | outcome :: _ =>
      match outcome with
      | .newErr e => some (.err e heap p)
      | .allocErr .outOfHostMemory => some (.err .outOfHostMemory heap p)
      | .allocErr .outOfDeviceMemory => some (.err .outOfDeviceMemory heap p)
      | .allocErr .fragmentedPool => some .unreachableBranch
      | .allocErr .outOfPoolMemory => some .unreachableBranch
      | .success =>
        let cid := heap.length
        let heap' := heap ++
          [{ capacity := p.next_capacity,
             reserve := freshSets cid p.next_capacity }]
        let p' : LocalPool :=
          { current_pool := some cid, next_capacity := satMul2 p.next_capacity }
        match tryPop heap' p' with
        | some (a, heap'') => some (.ok a heap'' p')
        | none => none

/-- The `DescriptorPoolAllocError` corresponding to an `OomError`, as matched
in the two error arms of `LocalPool::alloc`. -/
def oomToPoolErr : OomError → DescriptorPoolAllocError
  | .outOfHostMemory => .outOfHostMemory
  | .outOfDeviceMemory => .outOfDeviceMemory

/-- The well-formedness invariant of a pool system state: capacities follow
the geometric schedule, the current chunk id is valid, every live allocation
still holds its set and points at an existing chunk, and per chunk the
reserve plus the live loans are, up to order, exactly the batch created for
that chunk. -/
structure WF (heap : Heap) (p : LocalPool) (live : List LocalPoolAlloc) : Prop where
  cap_eq : p.next_capacity = capAfter heap.length
  chunk_cap : ∀ c, c < heap.length → (getChunk heap c).capacity = capAfter c
  cur_lt : ∀ cid, p.current_pool = some cid → cid < heap.length
  live_some : ∀ a ∈ live, ∃ s, a.actual_alloc = some s
  live_lt : ∀ a ∈ live, a.pool < heap.length
  conserve : ∀ c, c < heap.length →
    ((getChunk heap c).reserve ++ liveSetsOf live c).Perm
      (freshSets c (getChunk heap c).capacity)

/-- Modelled from the spec: the state of the underlying
`UnsafeDescriptorPool` (its implementation lives in
`descriptor_set/pool.rs`, which is not part of the analysed sources). Per
the external-interface description, it owns up to `maxSets` descriptor
sets; `allocated` have been handed out and `freedIndividually` counts sets
freed back one at a time (which this file's pool never does). -/
structure UnsafeDescriptorPool where
  maxSets : Nat
  allocated : Nat
  freedIndividually : Nat
deriving DecidableEq, Repr

/-- Modelled from the spec: `UnsafeDescriptorPool::new(device, count,
max_sets, false)` produces a fresh pool with no outstanding allocations and
no individual frees. -/
def UnsafeDescriptorPool.fresh (maxSets : Nat) : UnsafeDescriptorPool :=
  { maxSets, allocated := 0, freedIndividually := 0 }

/-- Modelled from the spec: which `DescriptorPoolAllocError` values the
underlying `UnsafeDescriptorPool::alloc` of `requested` sets can produce in
a given pool state. Host/device out-of-memory are environment outcomes and
always possible; a fragmented-pool error requires prior individual frees;
out-of-pool-memory requires insufficient remaining capacity. -/
def allocErrPossible (pool : UnsafeDescriptorPool) (requested : Nat) :
    DescriptorPoolAllocError → Bool
  | .outOfHostMemory => true
  | .outOfDeviceMemory => true
  | .fragmentedPool => decide (0 < pool.freedIndividually)
  | .outOfPoolMemory => decide (pool.maxSets < pool.allocated + requested)

/-- `FixedSizeDescriptorSet` reduced to the two observables its `PartialEq`
and `Hash` impls read: `self.inner().internal_object()` (the raw Vulkan
handle of the wrapped set) and `self.device()` (the owning device). -/
structure FixedSizeDescriptorSet where
  internalObject : Nat
  device : Nat
deriving DecidableEq, Repr

/-- `impl PartialEq for FixedSizeDescriptorSet`: equal internal objects and
equal devices. -/
def FixedSizeDescriptorSet.beq (a b : FixedSizeDescriptorSet) : Bool :=
  decide (a.internalObject = b.internalObject) && decide (a.device = b.device)

/-- `impl Hash for FixedSizeDescriptorSet`: the sequence of components fed
to the hasher, appended to the hasher state: first the internal object,
then the device, and nothing else. -/
def FixedSizeDescriptorSet.hashFeed (a : FixedSizeDescriptorSet)
    (state : List Nat) : List Nat :=
  state ++ [a.internalObject, a.device]

/-! Lemmas -/

theorem getChunk_append_length (heap : Heap) (c : LocalPoolInner) :
    getChunk (heap ++ [c]) heap.length = c := by
  induction heap with
  | nil => rfl
  | cons h t ih => simp [getChunk, List.getD] at ih ⊢

theorem freshSets_succ (cid k : Nat) :
    freshSets cid (k + 1) =
      { chunkId := cid, idx := 0 } ::
        (List.range k).map (fun i => { chunkId := cid, idx := i + 1 }) := by
  simp [freshSets, List.range_succ_eq_map, List.map_map, Function.comp]

theorem tryPop_fresh_isSome (heap : Heap) (cap nc : Nat) (h : 1 ≤ cap) :
    (tryPop
        (heap ++ [{ capacity := cap, reserve := freshSets heap.length cap }])
        { current_pool := some heap.length, next_capacity := nc }).isSome = true := by
  obtain ⟨k, rfl⟩ : ∃ k, cap = k + 1 := ⟨cap - 1, by omega⟩
  simp only [tryPop, getChunk_append_length, freshSets_succ]
  rfl

theorem alloc_eq_allocOnce (envs : List CreateOutcome) (heap : Heap)
    (p : LocalPool) (h : 1 ≤ p.next_capacity) :
    LocalPool.alloc envs heap p = allocOnce envs heap p := by
  unfold LocalPool.alloc
  simp only [allocLoop]
  unfold allocOnce
  cases htp : tryPop heap p with
  | some v => rfl
  | none =>
    cases envs with
    | nil => rfl
    | cons outcome rest =>
      cases outcome with
      | newErr e => rfl
      | allocErr e => cases e <;> rfl
      | success =>
        simp only [List.length_cons]
        simp only [allocLoop]
        cases htp2 : tryPop
            (heap ++
              [{ capacity := p.next_capacity,
                 reserve := freshSets heap.length p.next_capacity }])
            { current_pool := some heap.length,
              next_capacity := satMul2 p.next_capacity } with
        | some v => rfl
        | none =>
          have := tryPop_fresh_isSome heap p.next_capacity (satMul2 p.next_capacity) h
          rw [htp2] at this
          simp at this

theorem capAfter_eq (n : Nat) : capAfter n = min (3 * 2 ^ n) u32Max := by
  induction n with
  | zero => norm_num [capAfter, u32Max]
  | succ n ih =>
    rw [capAfter, ih, satMul2]
    have hx : (2 : Nat) ^ (n + 1) = 2 * 2 ^ n := by ring
    rw [hx]
    simp only [u32Max]
    omega

theorem three_le_capAfter (n : Nat) : 3 ≤ capAfter n := by
  rw [capAfter_eq]
  have h : 0 < (2 : Nat) ^ n := pow_pos (by norm_num) n
  simp only [u32Max]
  omega

theorem capAfter_le_capAfter {m n : Nat} (h : m ≤ n) :
    capAfter m ≤ capAfter n := by
  rw [capAfter_eq, capAfter_eq]
  have h2 := Nat.pow_le_pow_right (by norm_num : 1 ≤ 2) h
  simp only [u32Max]
  omega

theorem getChunk_set_self (heap : Heap) (c : Nat) (ch : LocalPoolInner)
    (h : c < heap.length) : getChunk (heap.set c ch) c = ch := by
  induction heap generalizing c with
  | nil => simp at h
  | cons x t ih =>
    cases c with
    | zero => rfl
    | succ m => exact ih m (by simp at h; omega)

theorem getChunk_set_ne (heap : Heap) (c c' : Nat) (ch : LocalPoolInner)
    (h : c ≠ c') : getChunk (heap.set c ch) c' = getChunk heap c' := by
  induction heap generalizing c c' with
  | nil => rfl
  | cons x t ih =>
    cases c with
    | zero =>
      cases c' with
      | zero => exact absurd rfl h
      | succ n => rfl
    | succ m =>
      cases c' with
      | zero => rfl
      | succ n => exact ih m n (by omega)

theorem getChunk_append_lt (heap l : Heap) (c : Nat) (h : c < heap.length) :
    getChunk (heap ++ l) c = getChunk heap c := by
  induction heap generalizing c with
  | nil => simp at h
  | cons x t ih =>
    cases c with
    | zero => rfl
    | succ m => exact ih m (by simp at h; omega)

theorem tryPop_some (heap : Heap) (p : LocalPool) (a : LocalPoolAlloc)
    (heap' : Heap) (h : tryPop heap p = some (a, heap')) :
    ∃ cid s rest,
      p.current_pool = some cid ∧
      (getChunk heap cid).reserve = s :: rest ∧
      a = { pool := cid, actual_alloc := some s } ∧
      heap' = heap.set cid
        { capacity := (getChunk heap cid).capacity, reserve := rest } := by
  unfold tryPop at h
  cases hc : p.current_pool with
  | none => rw [hc] at h; exact absurd h (by simp)
  | some cid =>
    rw [hc] at h
    simp only at h
    cases hr : (getChunk heap cid).reserve with
    | nil => rw [hr] at h; exact absurd h (by simp)
    | cons s rest =>
      rw [hr] at h
      simp only [Option.some.injEq, Prod.mk.injEq] at h
      exact ⟨cid, s, rest, rfl, hr, h.1.symm, h.2.symm⟩

theorem liveSetsOf_append (live live' : List LocalPoolAlloc) (c : Nat) :
    liveSetsOf (live ++ live') c = liveSetsOf live c ++ liveSetsOf live' c :=
  List.filterMap_append live live' _

theorem liveSetsOf_cons_self (cid : Nat) (s : UnsafeDescriptorSet)
    (live : List LocalPoolAlloc) :
    liveSetsOf ({ pool := cid, actual_alloc := some s } :: live) cid =
      s :: liveSetsOf live cid := by
  simp [liveSetsOf]

theorem liveSetsOf_cons_ne (cid c : Nat) (o : Option UnsafeDescriptorSet)
    (live : List LocalPoolAlloc) (h : cid ≠ c) :
    liveSetsOf ({ pool := cid, actual_alloc := o } :: live) c =
      liveSetsOf live c := by
  simp [liveSetsOf, h]

theorem liveSetsOf_eq_nil (live : List LocalPoolAlloc) (c : Nat)
    (h : ∀ a ∈ live, a.pool ≠ c) : liveSetsOf live c = [] := by
  induction live with
  | nil => rfl
  | cons a t ih =>
    have h1 : a.pool ≠ c := h a (by simp)
    simp only [liveSetsOf, List.filterMap_cons, if_neg h1]
    exact ih fun x hx => h x (by simp [hx])

theorem allocOnce_ok (envs : List CreateOutcome) (heap : Heap) (p : LocalPool)
    (a : LocalPoolAlloc) (heap' : Heap) (p' : LocalPool)
    (h : allocOnce envs heap p = some (.ok a heap' p')) :
    (tryPop heap p = some (a, heap') ∧ p' = p) ∨
    (tryPop heap p = none ∧ envs.head? = some .success ∧
      p' = { current_pool := some heap.length,
             next_capacity := satMul2 p.next_capacity } ∧
      tryPop
        (heap ++ [{ capacity := p.next_capacity,
                    reserve := freshSets heap.length p.next_capacity }])
        { current_pool := some heap.length,
          next_capacity := satMul2 p.next_capacity } = some (a, heap')) := by
  unfold allocOnce at h
  cases htp : tryPop heap p with
  | some v =>
    rw [htp] at h
    obtain ⟨a0, h0⟩ := v
    simp only [Option.some.injEq, AllocResult.ok.injEq] at h
    obtain ⟨rfl, rfl, rfl⟩ := h
    exact Or.inl ⟨rfl, rfl⟩
  | none =>
    rw [htp] at h
    cases envs with
    | nil => exact absurd h (by simp)
    | cons outcome rest =>
      cases outcome with
      | newErr e => exact absurd h (by simp)
      | allocErr e => cases e <;> exact absurd h (by simp)
      | success =>
        simp only at h
        cases htp2 : tryPop
            (heap ++ [{ capacity := p.next_capacity,
                        reserve := freshSets heap.length p.next_capacity }])
            { current_pool := some heap.length,
              next_capacity := satMul2 p.next_capacity } with
        | none => rw [htp2] at h; exact absurd h (by simp)
        | some v =>
          rw [htp2] at h
          obtain ⟨a0, h0⟩ := v
          simp only [Option.some.injEq, AllocResult.ok.injEq] at h
          obtain ⟨rfl, rfl, rfl⟩ := h
          exact Or.inr ⟨rfl, rfl, rfl, rfl⟩

theorem allocOnce_err (envs : List CreateOutcome) (heap : Heap) (p : LocalPool)
    (e : OomError) (heap' : Heap) (p' : LocalPool)
    (h : allocOnce envs heap p = some (.err e heap' p')) :
    heap' = heap ∧ p' = p ∧
      (envs.head? = some (.newErr e) ∨
       envs.head? = some (.allocErr (oomToPoolErr e))) := by
  unfold allocOnce at h
  cases htp : tryPop heap p with
  | some v => rw [htp] at h; obtain ⟨a0, h0⟩ := v; exact absurd h (by simp)
  | none =>
    rw [htp] at h
    cases envs with
    | nil => exact absurd h (by simp)
    | cons outcome rest =>
      cases outcome with
      | newErr e0 =>
        simp only [Option.some.injEq, AllocResult.err.injEq] at h
        obtain ⟨rfl, rfl, rfl⟩ := h
        exact ⟨rfl, rfl, Or.inl rfl⟩
      | allocErr e0 =>
        cases e0 with
        | outOfHostMemory =>
          simp only [Option.some.injEq, AllocResult.err.injEq] at h
          obtain ⟨rfl, rfl, rfl⟩ := h
          exact ⟨rfl, rfl, Or.inr rfl⟩
        | outOfDeviceMemory =>
          simp only [Option.some.injEq, AllocResult.err.injEq] at h
          obtain ⟨rfl, rfl, rfl⟩ := h
          exact ⟨rfl, rfl, Or.inr rfl⟩
        | fragmentedPool => exact absurd h (by simp)
        | outOfPoolMemory => exact absurd h (by simp)
      | success =>
        simp only at h
        cases htp2 : tryPop
            (heap ++ [{ capacity := p.next_capacity,
                        reserve := freshSets heap.length p.next_capacity }])
            { current_pool := some heap.length,
              next_capacity := satMul2 p.next_capacity } with
        | none => rw [htp2] at h; exact absurd h (by simp)
        | some v => rw [htp2] at h; obtain ⟨a0, h0⟩ := v; exact absurd h (by simp)

theorem liveSetsOf_cons (a : LocalPoolAlloc) (live : List LocalPoolAlloc)
    (c : Nat) :
    liveSetsOf (a :: live) c =
      (if a.pool = c then a.actual_alloc.toList else []) ++ liveSetsOf live c := by
  simp only [liveSetsOf, List.filterMap_cons]
  by_cases h : a.pool = c
  · cases a.actual_alloc <;> simp [h]
  · simp [h]

theorem initState_WF : WF initState.heap initState.pool initState.live := by
  refine ⟨rfl, ?_, ?_, ?_, ?_, ?_⟩ <;> intro c hc <;>
    simp [initState, FixedSizeDescriptorSetsPool.new] at hc

theorem WF.pop {heap : Heap} {p : LocalPool} {live : List LocalPoolAlloc}
    {a : LocalPoolAlloc} {heap' : Heap}
    (h : WF heap p live) (htp : tryPop heap p = some (a, heap')) :
    WF heap' p (live ++ [a]) := by
  obtain ⟨cid, s, rest, hc, hr, rfl, rfl⟩ := tryPop_some heap p a heap' htp
  have hlt : cid < heap.length := h.cur_lt cid hc
  constructor
  · rw [List.length_set]; exact h.cap_eq
  · intro c hcl
    rw [List.length_set] at hcl
    by_cases hcc : cid = c
    · subst hcc
      rw [getChunk_set_self _ _ _ hlt]
      exact h.chunk_cap cid hlt
    · rw [getChunk_set_ne _ _ _ _ hcc]; exact h.chunk_cap c hcl
  · intro cid' hc'
    rw [List.length_set]
    exact h.cur_lt cid' hc'
  · intro x hx
    rcases List.mem_append.mp hx with hx | hx
    · exact h.live_some x hx
    · rcases List.mem_singleton.mp hx with rfl
      exact ⟨s, rfl⟩
  · intro x hx
    rw [List.length_set]
    rcases List.mem_append.mp hx with hx | hx
    · exact h.live_lt x hx
    · rcases List.mem_singleton.mp hx with rfl
      exact hlt
  · intro c hcl
    rw [List.length_set] at hcl
    by_cases hcc : cid = c
    · subst hcc
      rw [getChunk_set_self _ _ _ hlt]
      have hcons := h.conserve cid hlt
      rw [hr] at hcons
      rw [liveSetsOf_append]
      have h1 : liveSetsOf [{ pool := cid, actual_alloc := some s }] cid = [s] := by
        simp [liveSetsOf]
      rw [h1]
      show (rest ++ (liveSetsOf live cid ++ [s])).Perm _
      have h2 : rest ++ (liveSetsOf live cid ++ [s]) =
          (rest ++ liveSetsOf live cid) ++ [s] := (List.append_assoc _ _ _).symm
      rw [h2]
      exact (List.perm_append_comm).trans hcons
    · rw [getChunk_set_ne _ _ _ _ hcc, liveSetsOf_append]
      have h1 : liveSetsOf [{ pool := cid, actual_alloc := some s }] c = [] := by
        simp [liveSetsOf, hcc]
      rw [h1, List.append_nil]
      exact h.conserve c hcl

theorem WF.newChunk {heap : Heap} {p : LocalPool} {live : List LocalPoolAlloc}
    (h : WF heap p live) :
    WF (heap ++ [{ capacity := p.next_capacity,
                   reserve := freshSets heap.length p.next_capacity }])
       { current_pool := some heap.length,
         next_capacity := satMul2 p.next_capacity } live := by
  constructor
  · simp only [List.length_append, List.length_cons, List.length_nil]
    rw [h.cap_eq]
    rfl
  · intro c hcl
    simp only [List.length_append, List.length_cons, List.length_nil] at hcl
    by_cases hlt : c < heap.length
    · rw [getChunk_append_lt _ _ _ hlt]; exact h.chunk_cap c hlt
    · have hce : c = heap.length := by omega
      subst hce
      rw [getChunk_append_length]
      exact h.cap_eq
  · intro cid hc
    simp only [Option.some.injEq] at hc
    subst hc
    simp
  · exact h.live_some
  · intro a ha
    simp only [List.length_append, List.length_cons, List.length_nil]
    have := h.live_lt a ha
    omega
  · intro c hcl
    simp only [List.length_append, List.length_cons, List.length_nil] at hcl
    by_cases hlt : c < heap.length
    · rw [getChunk_append_lt _ _ _ hlt]; exact h.conserve c hlt
    · have hce : c = heap.length := by omega
      subst hce
      rw [getChunk_append_length]
      have hnil : liveSetsOf live heap.length = [] :=
        liveSetsOf_eq_nil live heap.length
          (fun a ha => Nat.ne_of_lt (h.live_lt a ha))
      rw [hnil, List.append_nil]

theorem WF.release {heap : Heap} {p : LocalPool} {live : List LocalPoolAlloc}
    {i : Nat} {a : LocalPoolAlloc} {s : UnsafeDescriptorSet}
    (h : WF heap p live) (hi : live.get? i = some a)
    (hs : a.actual_alloc = some s) :
    WF (heap.set a.pool
          { capacity := (getChunk heap a.pool).capacity,
            reserve := (getChunk heap a.pool).reserve ++ [s] })
       p (live.eraseIdx i) := by
  have hmem : a ∈ live := List.get?_mem hi
  have hplt : a.pool < heap.length := h.live_lt a hmem
  obtain ⟨hilen, hgl⟩ := List.getElem?_eq_some.mp (List.get?_eq_getElem? live i ▸ hi)
  have hdecomp : live = live.take i ++ a :: live.drop (i + 1) := by
    conv_lhs => rw [← List.take_append_drop i live]
    rw [List.drop_eq_getElem_cons hilen, hgl]
  have herase : live.eraseIdx i = live.take i ++ live.drop (i + 1) :=
    List.eraseIdx_eq_take_drop_succ live i
  have hsub : ∀ x ∈ live.eraseIdx i, x ∈ live := by
    intro x hx
    rw [herase] at hx
    rcases List.mem_append.mp hx with hx | hx
    · exact List.mem_of_mem_take hx
    · exact List.mem_of_mem_drop hx
  constructor
  · rw [List.length_set]; exact h.cap_eq
  · intro c hcl
    rw [List.length_set] at hcl
    by_cases hcc : a.pool = c
    · subst hcc
      rw [getChunk_set_self _ _ _ hplt]
      exact h.chunk_cap a.pool hplt
    · rw [getChunk_set_ne _ _ _ _ hcc]; exact h.chunk_cap c hcl
  · intro cid' hc'
    rw [List.length_set]
    exact h.cur_lt cid' hc'
  · exact fun x hx => h.live_some x (hsub x hx)
  · intro x hx
    rw [List.length_set]
    exact h.live_lt x (hsub x hx)
  · intro c hcl
    rw [List.length_set] at hcl
    have hLcons : liveSetsOf live c =
        liveSetsOf (live.take i) c ++
          ((if a.pool = c then a.actual_alloc.toList else []) ++
            liveSetsOf (live.drop (i + 1)) c) := by
      conv_lhs => rw [hdecomp]
      rw [liveSetsOf_append, liveSetsOf_cons]
    have hLerase : liveSetsOf (live.eraseIdx i) c =
        liveSetsOf (live.take i) c ++ liveSetsOf (live.drop (i + 1)) c := by
      rw [herase, liveSetsOf_append]
    by_cases hcc : a.pool = c
    · subst hcc
      rw [getChunk_set_self _ _ _ hplt]
      have hcons := h.conserve a.pool hplt
      rw [hLcons, hs, if_pos rfl] at hcons
      rw [hLerase]
      show ((getChunk heap a.pool).reserve ++ [s] ++
        (liveSetsOf (live.take i) a.pool ++
          liveSetsOf (live.drop (i + 1)) a.pool)).Perm _
      refine List.Perm.trans ?_ hcons
      rw [List.append_assoc]
      refine List.Perm.append_left _ ?_
      show (s :: (liveSetsOf (live.take i) a.pool ++
        liveSetsOf (live.drop (i + 1)) a.pool)).Perm _
      exact List.perm_middle.symm
    · rw [getChunk_set_ne _ _ _ _ hcc]
      have hcons := h.conserve c hcl
      rw [hLcons, if_neg hcc, List.nil_append] at hcons
      rw [hLerase]
      exact hcons

theorem WF_stepOp {s : SysState} (h : WF s.heap s.pool s.live) (op : Op) :
    WF (stepOp s op).heap (stepOp s op).pool (stepOp s op).live := by
  cases op with
  | alloc envs =>
    have hcap : 1 ≤ s.pool.next_capacity := by
      rw [h.cap_eq]
      have := three_le_capAfter s.heap.length
      omega
    have heq := alloc_eq_allocOnce envs s.heap s.pool hcap
    cases hres : LocalPool.alloc envs s.heap s.pool with
    | none => simp only [stepOp, hres]; exact h
    | some r =>
      cases r with
      | ok a heap' p' =>
        simp only [stepOp, hres]
        have h2 : allocOnce envs s.heap s.pool = some (.ok a heap' p') :=
          heq.symm.trans hres
        rcases allocOnce_ok _ _ _ _ _ _ h2 with ⟨htp, rfl⟩ | ⟨htp, hhd, rfl, htp2⟩
        · exact h.pop htp
        · exact (h.newChunk).pop htp2
      | err e heap' p' =>
        simp only [stepOp, hres]
        have h2 : allocOnce envs s.heap s.pool = some (.err e heap' p') :=
          heq.symm.trans hres
        obtain ⟨rfl, rfl, -⟩ := allocOnce_err _ _ _ _ _ _ h2
        exact h
      | unreachableBranch => simp only [stepOp, hres]; exact h
  | release i =>
    cases hi : s.live.get? i with
    | none => simp only [stepOp, hi]; exact h
    | some a =>
      cases hs : a.actual_alloc with
      | none =>
        have hd : dropAlloc s.heap a = none := by rw [dropAlloc, hs]
        simp only [stepOp, hi, hd]
        exact h
      | some sv =>
        have hd : dropAlloc s.heap a =
            some (s.heap.set a.pool
              { capacity := (getChunk s.heap a.pool).capacity,
                reserve := (getChunk s.heap a.pool).reserve ++ [sv] }) := by
          rw [dropAlloc, hs]
        simp only [stepOp, hi, hd]
        exact h.release hi hs

theorem WF_run (ops : List Op) :
    WF (run ops).heap (run ops).pool (run ops).live := by
  suffices hgen : ∀ (l : List Op) (s : SysState), WF s.heap s.pool s.live →
      WF (l.foldl stepOp s).heap (l.foldl stepOp s).pool (l.foldl stepOp s).live by
    exact hgen ops initState initState_WF
  intro l
  induction l with
  | nil => exact fun s hs => hs
  | cons op t ih => exact fun s hs => ih _ (WF_stepOp hs op)

theorem stepOp_heap_length {s : SysState} (h : WF s.heap s.pool s.live)
    (op : Op) : s.heap.length ≤ (stepOp s op).heap.length := by
  cases op with
  | alloc envs =>
    have hcap : 1 ≤ s.pool.next_capacity := by
      rw [h.cap_eq]
      have := three_le_capAfter s.heap.length
      omega
    have heq := alloc_eq_allocOnce envs s.heap s.pool hcap
    cases hres : LocalPool.alloc envs s.heap s.pool with
    | none => simp [stepOp, hres]
    | some r =>
      cases r with
      | ok a heap' p' =>
        simp only [stepOp, hres]
        have h2 : allocOnce envs s.heap s.pool = some (.ok a heap' p') :=
          heq.symm.trans hres
        rcases allocOnce_ok _ _ _ _ _ _ h2 with ⟨htp, rfl⟩ | ⟨htp, hhd, rfl, htp2⟩
        · obtain ⟨cid, s', rest, hc, hr, ha, rfl⟩ := tryPop_some _ _ _ _ htp
          simp [List.length_set]
        · obtain ⟨cid, s', rest, hc, hr, ha, rfl⟩ := tryPop_some _ _ _ _ htp2
          simp [List.length_set]
      | err e heap' p' =>
        simp only [stepOp, hres]
        have h2 : allocOnce envs s.heap s.pool = some (.err e heap' p') :=
          heq.symm.trans hres
        obtain ⟨rfl, rfl, -⟩ := allocOnce_err _ _ _ _ _ _ h2
        exact Nat.le_refl _
      | unreachableBranch => simp [stepOp, hres]
  | release i =>
    cases hi : s.live.get? i with
    | none => simp only [stepOp, hi]; exact Nat.le_refl _
    | some a =>
      cases hs : a.actual_alloc with
      | none =>
        have hd : dropAlloc s.heap a = none := by rw [dropAlloc, hs]
        simp only [stepOp, hi, hd]
        exact Nat.le_refl _
      | some sv =>
        have hd : dropAlloc s.heap a =
            some (s.heap.set a.pool
              { capacity := (getChunk s.heap a.pool).capacity,
                reserve := (getChunk s.heap a.pool).reserve ++ [sv] }) := by
          rw [dropAlloc, hs]
        simp only [stepOp, hi, hd]
        rw [List.length_set]

theorem stepOp_next_capacity_mono {s : SysState}
    (h : WF s.heap s.pool s.live) (op : Op) :
    s.pool.next_capacity ≤ (stepOp s op).pool.next_capacity := by
  have h2 := WF_stepOp h op
  rw [h.cap_eq, h2.cap_eq]
  exact capAfter_le_capAfter (stepOp_heap_length h op)

theorem alloc_of_tryPop_some (envs : List CreateOutcome) (heap : Heap)
    (p : LocalPool) (a : LocalPoolAlloc) (heap' : Heap)
    (htp : tryPop heap p = some (a, heap')) :
    LocalPool.alloc envs heap p = some (.ok a heap' p) := by
  unfold LocalPool.alloc
  simp only [allocLoop]
  rw [htp]

theorem freshSets_nodup (cid cap : Nat) : (freshSets cid cap).Nodup := by
  refine List.Nodup.map ?_ (List.nodup_range cap)
  intro i j hij
  simpa using congrArg UnsafeDescriptorSet.idx hij

theorem alloc_after_release_to_current (heap : Heap) (a : LocalPoolAlloc)
    (s : UnsafeDescriptorSet) (heap' : Heap) (p : LocalPool)
    (envs : List CreateOutcome)
    (hs : a.actual_alloc = some s) (hd : dropAlloc heap a = some heap')
    (hcur : p.current_pool = some a.pool) (hlt : a.pool < heap.length) :
    ∃ a2 heap2, LocalPool.alloc envs heap' p = some (.ok a2 heap2 p) := by
  rw [dropAlloc, hs] at hd
  simp only [Option.some.injEq] at hd
  subst hd
  have hres : (getChunk (heap.set a.pool
      { capacity := (getChunk heap a.pool).capacity,
        reserve := (getChunk heap a.pool).reserve ++ [s] }) a.pool).reserve =
      (getChunk heap a.pool).reserve ++ [s] := by
    rw [getChunk_set_self _ _ _ hlt]
  cases hcase : (getChunk heap a.pool).reserve ++ [s] with
  | nil => exact absurd hcase (by simp)
  | cons y ys =>
    rw [hcase] at hres
    have htp : tryPop (heap.set a.pool
        { capacity := (getChunk heap a.pool).capacity,
          reserve := y :: ys }) p =
        some ({ pool := a.pool, actual_alloc := some y },
          (heap.set a.pool
            { capacity := (getChunk heap a.pool).capacity,
              reserve := y :: ys }).set a.pool
            { capacity := (getChunk (heap.set a.pool
                { capacity := (getChunk heap a.pool).capacity,
                  reserve := y :: ys }) a.pool).capacity,
              reserve := ys }) := by
      unfold tryPop
      rw [hcur]
      simp only
      rw [hres]
    exact ⟨_, _, alloc_of_tryPop_some envs _ p _ _ htp⟩

theorem allocLoop_ne_unreachable (fuel : Nat) :
    ∀ (envs : List CreateOutcome) (heap : Heap) (p : LocalPool),
      (∀ o ∈ envs, ∀ e, o = CreateOutcome.allocErr e →
        ∀ cap, allocErrPossible (UnsafeDescriptorPool.fresh cap) cap e = true) →
      allocLoop fuel envs heap p ≠ some .unreachableBranch := by
  induction fuel with
  | zero => intro envs heap p _ h; exact absurd h (by simp [allocLoop])
  | succ n ih =>
    intro envs heap p henv h
    simp only [allocLoop] at h
    cases htp : tryPop heap p with
    | some v => rw [htp] at h; obtain ⟨a, hp2⟩ := v; simp at h
    | none =>
      rw [htp] at h
      cases envs with
      | nil => simp at h
      | cons o rest =>
        cases o with
        | newErr e => simp at h
        | allocErr e =>
          cases e with
          | outOfHostMemory => simp at h
          | outOfDeviceMemory => simp at h
          | fragmentedPool =>
            have hv := henv _ (List.mem_cons_self _ _)
              DescriptorPoolAllocError.fragmentedPool rfl 0
            simp [allocErrPossible, UnsafeDescriptorPool.fresh] at hv
          | outOfPoolMemory =>
            have hv := henv _ (List.mem_cons_self _ _)
              DescriptorPoolAllocError.outOfPoolMemory rfl 0
            simp [allocErrPossible, UnsafeDescriptorPool.fresh] at hv
        | success =>
          simp only at h
          exact absurd h (ih rest _ _
            (fun o ho e he cap => henv o (List.mem_cons_of_mem _ ho) e he cap))

/-! Claims -/

/-- Claim C1, capacity growth: `next_capacity` is seeded at 3 by
`FixedSizeDescriptorSetsPool::new`, is set to `saturating_mul 2` of itself
after each successful bulk pool creation, chunk `n` (the `n+1`-st successful
bulk creation) requests exactly `min (3 * 2 ^ n) u32Max` descriptor sets,
and the capacity sequence is non-decreasing along every operation
sequence. -/
theorem capacity_growth :
    (∀ L, (FixedSizeDescriptorSetsPool.new L).pool.next_capacity = 3) ∧
    (∀ envs heap (p : LocalPool) a heap' p', 1 ≤ p.next_capacity →
      tryPop heap p = none →
      LocalPool.alloc envs heap p = some (.ok a heap' p') →
      p'.next_capacity = satMul2 p.next_capacity) ∧
    (∀ ops, (run ops).pool.next_capacity =
      min (3 * 2 ^ (run ops).heap.length) u32Max) ∧
    (∀ ops n, n < (run ops).heap.length →
      (getChunk (run ops).heap n).capacity = min (3 * 2 ^ n) u32Max) ∧
    (∀ ops op, (run ops).pool.next_capacity ≤
      (run (ops ++ [op])).pool.next_capacity) := by
  refine ⟨fun L => rfl, ?_, fun ops => ?_, fun ops n hn => ?_, fun ops op => ?_⟩
  · intro envs heap p a heap' p' hcap htp halloc
    have h2 := (alloc_eq_allocOnce envs heap p hcap).symm.trans halloc
    rcases allocOnce_ok _ _ _ _ _ _ h2 with ⟨htp2, rfl⟩ | ⟨htp2, hhd, rfl, htp3⟩
    · rw [htp] at htp2; exact absurd htp2 (by simp)
    · rfl
  · rw [(WF_run ops).cap_eq, capAfter_eq]
  · rw [(WF_run ops).chunk_cap n hn, capAfter_eq]
  · simp only [run]
    rw [List.foldl_append]
    exact stepOp_next_capacity_mono (WF_run ops) op

theorem capacity_growth_witness :
    0 < (run [Op.alloc [CreateOutcome.success]]).heap.length ∧
    (getChunk (run [Op.alloc [CreateOutcome.success]]).heap 0).capacity =
      min (3 * 2 ^ 0) u32Max :=
  ⟨by decide,
    capacity_growth.2.2.2.1 [Op.alloc [CreateOutcome.success]] 0 (by decide)⟩

/-- Claim C2, error atomicity: when `LocalPool::alloc` returns an
`OutOfHostMemory` or `OutOfDeviceMemory` error, it is exactly the error the
bulk-creation step failed with (the head of the environment trace), and
both the heap and the pool (`next_capacity` and `current_pool`) are exactly
their values before the call, so a retried `alloc` behaves the same. -/
theorem alloc_error_atomic (envs : List CreateOutcome) (heap : Heap)
    (p : LocalPool) (e : OomError) (heap' : Heap) (p' : LocalPool)
    (hcap : 1 ≤ p.next_capacity)
    (h : LocalPool.alloc envs heap p = some (.err e heap' p')) :
    heap' = heap ∧ p' = p ∧ p'.next_capacity = p.next_capacity ∧
      p'.current_pool = p.current_pool ∧
      (envs.head? = some (.newErr e) ∨
       envs.head? = some (.allocErr (oomToPoolErr e))) ∧
      (∀ envs2, LocalPool.alloc envs2 heap' p' = LocalPool.alloc envs2 heap p) := by
  have h2 := (alloc_eq_allocOnce envs heap p hcap).symm.trans h
  obtain ⟨rfl, rfl, hsrc⟩ := allocOnce_err _ _ _ _ _ _ h2
  exact ⟨rfl, rfl, rfl, rfl, hsrc, fun _ => rfl⟩

theorem alloc_error_atomic_witness :
    1 ≤ ({ current_pool := none, next_capacity := 3 } : LocalPool).next_capacity ∧
    (([] : Heap) = [] ∧
      ({ current_pool := none, next_capacity := 3 } : LocalPool) =
        { current_pool := none, next_capacity := 3 } ∧
      ({ current_pool := none, next_capacity := 3 } : LocalPool).next_capacity =
        ({ current_pool := none, next_capacity := 3 } : LocalPool).next_capacity ∧
      ({ current_pool := none, next_capacity := 3 } : LocalPool).current_pool =
        ({ current_pool := none, next_capacity := 3 } : LocalPool).current_pool ∧
      ([CreateOutcome.newErr OomError.outOfHostMemory].head? =
          some (.newErr OomError.outOfHostMemory) ∨
       [CreateOutcome.newErr OomError.outOfHostMemory].head? =
          some (.allocErr (oomToPoolErr OomError.outOfHostMemory))) ∧
      (∀ envs2, LocalPool.alloc envs2 []
          { current_pool := none, next_capacity := 3 } =
        LocalPool.alloc envs2 [] { current_pool := none, next_capacity := 3 })) :=
  ⟨by decide,
    alloc_error_atomic [CreateOutcome.newErr OomError.outOfHostMemory] []
      { current_pool := none, next_capacity := 3 } OomError.outOfHostMemory []
      { current_pool := none, next_capacity := 3 } (by decide) (by decide)⟩

/-- Claim C4, hot path: when `current_pool` is set and its reserve is
non-empty, `alloc` pops the front set, returns it in a `LocalPoolAlloc`
holding a clone of the current chunk's `Arc`, does not consult the
environment (no bulk creation), and returns the pool unchanged (same
`next_capacity`, same `current_pool`). -/
theorem alloc_hot_path (envs : List CreateOutcome) (heap : Heap)
    (p : LocalPool) (cid : Nat) (s : UnsafeDescriptorSet)
    (rest : List UnsafeDescriptorSet)
    (hcur : p.current_pool = some cid)
    (hres : (getChunk heap cid).reserve = s :: rest) :
    LocalPool.alloc envs heap p =
      some (.ok { pool := cid, actual_alloc := some s }
        (heap.set cid
          { capacity := (getChunk heap cid).capacity, reserve := rest }) p) := by
  have htp : tryPop heap p =
      some ({ pool := cid, actual_alloc := some s },
        heap.set cid
          { capacity := (getChunk heap cid).capacity, reserve := rest }) := by
    unfold tryPop
    rw [hcur]
    simp only
    rw [hres]
  exact alloc_of_tryPop_some envs heap p _ _ htp

theorem alloc_hot_path_witness :
    (LocalPool.mk (some 0) 6).current_pool = some 0 ∧
    (getChunk [LocalPoolInner.mk 3 [UnsafeDescriptorSet.mk 0 2]] 0).reserve =
      UnsafeDescriptorSet.mk 0 2 :: [] ∧
    LocalPool.alloc [] [LocalPoolInner.mk 3 [UnsafeDescriptorSet.mk 0 2]]
      (LocalPool.mk (some 0) 6) =
      some (.ok (LocalPoolAlloc.mk 0 (some (UnsafeDescriptorSet.mk 0 2)))
        (([LocalPoolInner.mk 3 [UnsafeDescriptorSet.mk 0 2]] : Heap).set 0
          (LocalPoolInner.mk
            (getChunk [LocalPoolInner.mk 3 [UnsafeDescriptorSet.mk 0 2]] 0).capacity
            []))
        (LocalPool.mk (some 0) 6)) :=
  ⟨by decide, by decide,
    alloc_hot_path [] [LocalPoolInner.mk 3 [UnsafeDescriptorSet.mk 0 2]]
      (LocalPool.mk (some 0) 6) 0 (UnsafeDescriptorSet.mk 0 2) []
      (by decide) (by decide)⟩

/-- Claim C3, no double-issue and conservation: in every state reachable by
alloc/release operations from a fresh pool, each chunk's reserve and the
sets held by live allocations drawn from that chunk are disjoint, and
together they are, up to order, exactly the `capacity` sets created for the
chunk at its creation. -/
theorem no_double_issue (ops : List Op) (c : Nat)
    (h : c < (run ops).heap.length) :
    ((getChunk (run ops).heap c).reserve ++ liveSetsOf (run ops).live c).Perm
        (freshSets c (getChunk (run ops).heap c).capacity) ∧
    (∀ x ∈ (getChunk (run ops).heap c).reserve,
        x ∉ liveSetsOf (run ops).live c) := by
  have hw := WF_run ops
  have hp := hw.conserve c h
  refine ⟨hp, ?_⟩
  have hnodup : ((getChunk (run ops).heap c).reserve ++
      liveSetsOf (run ops).live c).Nodup :=
    hp.nodup_iff.mpr (freshSets_nodup c _)
  have hdisj := (List.nodup_append.mp hnodup).2.2
  exact fun x hx hx2 => hdisj hx hx2

theorem no_double_issue_witness :
    0 < (run [Op.alloc [CreateOutcome.success]]).heap.length ∧
    ((getChunk (run [Op.alloc [CreateOutcome.success]]).heap 0).reserve ++
        liveSetsOf (run [Op.alloc [CreateOutcome.success]]).live 0).Perm
      (freshSets 0
        (getChunk (run [Op.alloc [CreateOutcome.success]]).heap 0).capacity) :=
  ⟨by decide, (no_double_issue [Op.alloc [CreateOutcome.success]] 0 (by decide)).1⟩

/-- Claim C5, recycling to origin: dropping a `LocalPoolAlloc` pushes its set
onto the reserve of the chunk stored in its own `pool` field (its origin),
not the pool's current chunk; if the origin chunk is still current, a
following `alloc` serves from it with no bulk creation and an unchanged
pool; if the pool has since moved to a different (empty) current chunk, a
following `alloc` still performs a bulk creation despite the release. -/
theorem release_to_origin :
    (∀ heap (a : LocalPoolAlloc) s, a.actual_alloc = some s →
      dropAlloc heap a = some (heap.set a.pool
        { capacity := (getChunk heap a.pool).capacity,
          reserve := (getChunk heap a.pool).reserve ++ [s] })) ∧
    (∀ heap (a : LocalPoolAlloc) s heap' (p : LocalPool) envs,
      a.actual_alloc = some s →
      dropAlloc heap a = some heap' →
      p.current_pool = some a.pool →
      a.pool < heap.length →
      ∃ a2 heap2, LocalPool.alloc envs heap' p = some (.ok a2 heap2 p)) ∧
    (∀ heap (a : LocalPoolAlloc) s heap' (p : LocalPool) envs c2,
      a.actual_alloc = some s →
      dropAlloc heap a = some heap' →
      p.current_pool = some c2 → c2 ≠ a.pool →
      (getChunk heap c2).reserve = [] →
      1 ≤ p.next_capacity →
      envs.head? = some CreateOutcome.success →
      ∃ a2 heap2, LocalPool.alloc envs heap' p =
          some (.ok a2 heap2
            (LocalPool.mk (some heap'.length) (satMul2 p.next_capacity))) ∧
        heap2.length = heap'.length + 1) := by
  refine ⟨?_, ?_, ?_⟩
  · intro heap a s hs
    rw [dropAlloc, hs]
  · intro heap a s heap' p envs hs hd hcur hlt
    exact alloc_after_release_to_current heap a s heap' p envs hs hd hcur hlt
  · intro heap a s heap' p envs c2 hs hd hcur hne hempty hcap hhd
    rw [dropAlloc, hs] at hd
    simp only [Option.some.injEq] at hd
    subst hd
    have hne2 : a.pool ≠ c2 := fun hh => hne hh.symm
    have htp : tryPop (heap.set a.pool
        { capacity := (getChunk heap a.pool).capacity,
          reserve := (getChunk heap a.pool).reserve ++ [s] }) p = none := by
      unfold tryPop
      rw [hcur]
      simp only
      rw [getChunk_set_ne _ _ _ _ hne2, hempty]
    have heq := alloc_eq_allocOnce envs (heap.set a.pool
        { capacity := (getChunk heap a.pool).capacity,
          reserve := (getChunk heap a.pool).reserve ++ [s] }) p hcap
    rw [heq]
    unfold allocOnce
    rw [htp]
    cases envs with
    | nil => exact absurd hhd (by simp)
    | cons e rest =>
      have he : e = CreateOutcome.success := by
        simp only [List.head?_cons, Option.some.injEq] at hhd
        exact hhd
      subst he
      simp only
      cases htp2 : tryPop
          ((heap.set a.pool
            { capacity := (getChunk heap a.pool).capacity,
              reserve := (getChunk heap a.pool).reserve ++ [s] }) ++
            [{ capacity := p.next_capacity,
               reserve := freshSets (heap.set a.pool
                 { capacity := (getChunk heap a.pool).capacity,
                   reserve := (getChunk heap a.pool).reserve ++ [s] }).length
                 p.next_capacity }])
          { current_pool := some (heap.set a.pool
              { capacity := (getChunk heap a.pool).capacity,
                reserve := (getChunk heap a.pool).reserve ++ [s] }).length,
            next_capacity := satMul2 p.next_capacity } with
      | none =>
        have hiss := tryPop_fresh_isSome (heap.set a.pool
            { capacity := (getChunk heap a.pool).capacity,
              reserve := (getChunk heap a.pool).reserve ++ [s] })
          p.next_capacity (satMul2 p.next_capacity) hcap
        rw [htp2] at hiss
        simp at hiss
      | some v =>
        obtain ⟨a2, h2⟩ := v
        obtain ⟨cid, s2, rest2, hcid, hr2, ha2, hh2⟩ := tryPop_some _ _ _ _ htp2
        simp only [Option.some.injEq] at hcid
        refine ⟨a2, h2, rfl, ?_⟩
        rw [hh2, List.length_set, List.length_append]
        simp

theorem release_to_origin_witness :
    (LocalPoolAlloc.mk 0 (some (UnsafeDescriptorSet.mk 0 0))).actual_alloc =
        some (UnsafeDescriptorSet.mk 0 0) ∧
    dropAlloc [LocalPoolInner.mk 3 []]
        (LocalPoolAlloc.mk 0 (some (UnsafeDescriptorSet.mk 0 0))) =
      some (([LocalPoolInner.mk 3 []] : Heap).set 0
        { capacity := (getChunk [LocalPoolInner.mk 3 []] 0).capacity,
          reserve := (getChunk [LocalPoolInner.mk 3 []] 0).reserve ++
            [UnsafeDescriptorSet.mk 0 0] }) :=
  ⟨rfl, release_to_origin.1 [LocalPoolInner.mk 3 []]
    (LocalPoolAlloc.mk 0 (some (UnsafeDescriptorSet.mk 0 0)))
    (UnsafeDescriptorSet.mk 0 0) rfl⟩

/-- Claim C6, unreachable error branches: if every bulk-allocation failure the
environment can produce is one the spec-modelled underlying pool admits for
a fresh pool whose capacity equals the requested count (no individual frees
have happened, and the request fits exactly), then `LocalPool::alloc` never
reaches the two `unreachable!()` arms: every result is `Ok`,
`OutOfHostMemory`, or `OutOfDeviceMemory`. -/
theorem unreachable_branches_valid (envs : List CreateOutcome) (heap : Heap)
    (p : LocalPool)
    (henv : ∀ o ∈ envs, ∀ e, o = CreateOutcome.allocErr e →
      ∀ cap, allocErrPossible (UnsafeDescriptorPool.fresh cap) cap e = true) :
    ∀ r, LocalPool.alloc envs heap p = some r →
      (∃ a heap' p', r = .ok a heap' p') ∨
      (∃ heap' p', r = .err .outOfHostMemory heap' p') ∨
      (∃ heap' p', r = .err .outOfDeviceMemory heap' p') := by
  intro r hr
  cases r with
  | ok a heap' p' => exact Or.inl ⟨a, heap', p', rfl⟩
  | err e heap' p' =>
    cases e with
    | outOfHostMemory => exact Or.inr (Or.inl ⟨heap', p', rfl⟩)
    | outOfDeviceMemory => exact Or.inr (Or.inr ⟨heap', p', rfl⟩)
  | unreachableBranch =>
    exact absurd hr (allocLoop_ne_unreachable _ envs heap p henv)

theorem unreachable_branches_valid_witness :
    (∃ a heap' p',
        (AllocResult.ok
          (LocalPoolAlloc.mk 0 (some (UnsafeDescriptorSet.mk 0 0)))
          [LocalPoolInner.mk 3
            [UnsafeDescriptorSet.mk 0 1, UnsafeDescriptorSet.mk 0 2]]
          (LocalPool.mk (some 0) 6)) = .ok a heap' p') ∨
    (∃ heap' p',
        (AllocResult.ok
          (LocalPoolAlloc.mk 0 (some (UnsafeDescriptorSet.mk 0 0)))
          [LocalPoolInner.mk 3
            [UnsafeDescriptorSet.mk 0 1, UnsafeDescriptorSet.mk 0 2]]
          (LocalPool.mk (some 0) 6)) = .err .outOfHostMemory heap' p') ∨
    (∃ heap' p',
        (AllocResult.ok
          (LocalPoolAlloc.mk 0 (some (UnsafeDescriptorSet.mk 0 0)))
          [LocalPoolInner.mk 3
            [UnsafeDescriptorSet.mk 0 1, UnsafeDescriptorSet.mk 0 2]]
          (LocalPool.mk (some 0) 6)) = .err .outOfDeviceMemory heap' p') :=
  unreachable_branches_valid [CreateOutcome.success] []
    (LocalPool.mk none 3)
    (by
      intro o ho e he cap
      simp only [List.mem_singleton] at ho
      subst ho
      cases he)
    _ (by decide)

/-- Claim C7, exactly-once release: every live allocation in a reachable state
still holds its descriptor set (`actual_alloc` is `Some`), so the `unwrap`s
in `inner`/`inner_mut` and the `take().unwrap()` in `Drop` cannot panic,
and the release step consumes the allocation (removes it from the live
list), making a second release of the same allocation impossible. -/
theorem release_exactly_once (ops : List Op) (a : LocalPoolAlloc)
    (h : a ∈ (run ops).live) :
    a.actual_alloc.isSome = true ∧
    a.innerSet.isSome = true ∧
    (dropAlloc (run ops).heap a).isSome = true ∧
    (∀ i, (run ops).live.get? i = some a →
      (stepOp (run ops) (Op.release i)).live = (run ops).live.eraseIdx i) := by
  obtain ⟨s, hs⟩ := (WF_run ops).live_some a h
  have hd : dropAlloc (run ops).heap a =
      some ((run ops).heap.set a.pool
        { capacity := (getChunk (run ops).heap a.pool).capacity,
          reserve := (getChunk (run ops).heap a.pool).reserve ++ [s] }) := by
    rw [dropAlloc, hs]
  refine ⟨by rw [hs]; rfl, ?_, by rw [hd]; rfl, ?_⟩
  · show a.actual_alloc.isSome = true
    rw [hs]
    rfl
  · intro i hi
    simp only [stepOp, hi, hd]

theorem release_exactly_once_witness :
    (LocalPoolAlloc.mk 0 (some (UnsafeDescriptorSet.mk 0 0))) ∈
      (run [Op.alloc [CreateOutcome.success]]).live ∧
    (LocalPoolAlloc.mk 0 (some (UnsafeDescriptorSet.mk 0 0))).actual_alloc.isSome
      = true :=
  ⟨by decide,
    (release_exactly_once [Op.alloc [CreateOutcome.success]]
      (LocalPoolAlloc.mk 0 (some (UnsafeDescriptorSet.mk 0 0))) (by decide)).1⟩

/-- Claim C8, termination of the allocate loop: one `alloc` call equals at most
two unfoldings of the loop inspecting at most the first environment
outcome; it always returns a result; a success grows the heap by at most
one chunk; an error leaves the state unchanged; when the first pop fails
and the creation succeeds, the new chunk of `next_capacity ≥ 3` sets is
installed as current and the second pop succeeds; and every reachable pool
has `next_capacity ≥ 3`. -/
theorem alloc_terminates (envs : List CreateOutcome) (heap : Heap)
    (p : LocalPool) (hcap : 3 ≤ p.next_capacity) (henv : envs ≠ []) :
    LocalPool.alloc envs heap p = allocLoop 2 (envs.take 1) heap p ∧
    (LocalPool.alloc envs heap p).isSome = true ∧
    (∀ a heap' p', LocalPool.alloc envs heap p = some (.ok a heap' p') →
      heap'.length ≤ heap.length + 1) ∧
    (∀ e heap' p', LocalPool.alloc envs heap p = some (.err e heap' p') →
      heap' = heap ∧ p' = p) ∧
    (tryPop heap p = none → envs.head? = some CreateOutcome.success →
      ∃ a heap', LocalPool.alloc envs heap p =
          some (.ok a heap'
            (LocalPool.mk (some heap.length) (satMul2 p.next_capacity))) ∧
        heap'.length = heap.length + 1 ∧
        (getChunk heap' heap.length).capacity = p.next_capacity) ∧
    (∀ ops, 3 ≤ (run ops).pool.next_capacity) := by
  have hcap1 : 1 ≤ p.next_capacity := by omega
  cases envs with
  | nil => exact absurd rfl henv
  | cons e rest =>
  have he1 := alloc_eq_allocOnce (e :: rest) heap p hcap1
  have he2 := alloc_eq_allocOnce [e] heap p hcap1
  refine ⟨?_, ?_, ?_, ?_, ?_, ?_⟩
  · exact he1.trans he2.symm
  · rw [he1]
    unfold allocOnce
    cases htp : tryPop heap p with
    | some v => rfl
    | none =>
      cases e with
      | newErr e0 => rfl
      | allocErr e0 => cases e0 <;> rfl
      | success =>
        simp only
        cases htp2 : tryPop
            (heap ++ [{ capacity := p.next_capacity,
                        reserve := freshSets heap.length p.next_capacity }])
            { current_pool := some heap.length,
              next_capacity := satMul2 p.next_capacity } with
        | some v => rfl
        | none =>
          have hiss := tryPop_fresh_isSome heap p.next_capacity
            (satMul2 p.next_capacity) hcap1
          rw [htp2] at hiss
          simp at hiss
  · intro a heap' p' ha
    have h2 := he1.symm.trans ha
    rcases allocOnce_ok _ _ _ _ _ _ h2 with ⟨htp, rfl⟩ | ⟨htp, hhd, rfl, htp2⟩
    · obtain ⟨cid, s', rest', hc, hr, ha2, rfl⟩ := tryPop_some _ _ _ _ htp
      rw [List.length_set]
      omega
    · obtain ⟨cid, s', rest', hc, hr, ha2, rfl⟩ := tryPop_some _ _ _ _ htp2
      rw [List.length_set, List.length_append]
      simp
  · intro e0 heap' p' ha
    have h2 := he1.symm.trans ha
    obtain ⟨rfl, rfl, -⟩ := allocOnce_err _ _ _ _ _ _ h2
    exact ⟨rfl, rfl⟩
  · intro htp hhd
    have he : e = CreateOutcome.success := by
      simp only [List.head?_cons, Option.some.injEq] at hhd
      exact hhd
    subst he
    rw [he1]
    unfold allocOnce
    rw [htp]
    simp only
    cases htp2 : tryPop
        (heap ++ [{ capacity := p.next_capacity,
                    reserve := freshSets heap.length p.next_capacity }])
        { current_pool := some heap.length,
          next_capacity := satMul2 p.next_capacity } with
    | none =>
      have hiss := tryPop_fresh_isSome heap p.next_capacity
        (satMul2 p.next_capacity) hcap1
      rw [htp2] at hiss
      simp at hiss
    | some v =>
      obtain ⟨a2, h2⟩ := v
      obtain ⟨cid, s2, rest2, hcid, hr2, ha2, hh2⟩ := tryPop_some _ _ _ _ htp2
      simp only [Option.some.injEq] at hcid
      subst hcid
      refine ⟨a2, h2, rfl, ?_, ?_⟩
      · rw [hh2, List.length_set, List.length_append]
        simp
      · rw [hh2]
        have hlen : heap.length <
            (heap ++ [LocalPoolInner.mk p.next_capacity
              (freshSets heap.length p.next_capacity)]).length := by
          rw [List.length_append]
          simp
        rw [getChunk_set_self _ _ _ hlen, getChunk_append_length]
  · intro ops
    rw [(WF_run ops).cap_eq]
    exact three_le_capAfter _

theorem alloc_terminates_witness :
    3 ≤ (LocalPool.mk none 3).next_capacity ∧
    ([CreateOutcome.success] ≠ ([] : List CreateOutcome)) ∧
    (LocalPool.alloc [CreateOutcome.success] []
      (LocalPool.mk none 3)).isSome = true :=
  ⟨by decide, by decide,
    (alloc_terminates [CreateOutcome.success] [] (LocalPool.mk none 3)
      (by decide) (by decide)).2.1⟩

/-- Claim C9, equality and hash delegation: two `FixedSizeDescriptorSet`
values are equal exactly when their inner sets have the same internal
Vulkan object and the same device, and the hash feeds exactly these two
components to the hasher, so equal values hash identically. -/
theorem eq_hash_delegation (a b : FixedSizeDescriptorSet) :
    (FixedSizeDescriptorSet.beq a b = true ↔
      (a.internalObject = b.internalObject ∧ a.device = b.device)) ∧
    (FixedSizeDescriptorSet.beq a b = true →
      ∀ st, FixedSizeDescriptorSet.hashFeed a st =
        FixedSizeDescriptorSet.hashFeed b st) := by
  constructor
  · simp [FixedSizeDescriptorSet.beq]
  · intro hbeq st
    simp only [FixedSizeDescriptorSet.beq, Bool.and_eq_true,
      decide_eq_true_eq] at hbeq
    simp [FixedSizeDescriptorSet.hashFeed, hbeq.1, hbeq.2]

theorem eq_hash_delegation_witness :
    FixedSizeDescriptorSet.beq (FixedSizeDescriptorSet.mk 5 7)
        (FixedSizeDescriptorSet.mk 5 7) = true ∧
    FixedSizeDescriptorSet.hashFeed (FixedSizeDescriptorSet.mk 5 7) [] =
      FixedSizeDescriptorSet.hashFeed (FixedSizeDescriptorSet.mk 5 7) [] :=
  ⟨by decide,
    (eq_hash_delegation (FixedSizeDescriptorSet.mk 5 7)
      (FixedSizeDescriptorSet.mk 5 7)).2 (by decide) []⟩

/-- Claim C10, clone semantics: cloning a `FixedSizeDescriptorSetsPool` yields
the same layout, the same `next_capacity`, and the same current chunk id
(the `Arc` is cloned, so the chunk is shared): a set released into the
shared current chunk becomes poppable by an `alloc` on the original and by
an `alloc` on the clone; and the two pool values are separate records, so
stepping one never changes the other's `next_capacity` or `current_pool`
fields. -/
theorem clone_shares_chunk (fsp : FixedSizeDescriptorSetsPool) :
    (fsp.clone.layout = fsp.layout ∧
     fsp.clone.pool.next_capacity = fsp.pool.next_capacity ∧
     fsp.clone.pool.current_pool = fsp.pool.current_pool) ∧
    (∀ heap (a : LocalPoolAlloc) s heap' envs envs2,
      fsp.pool.current_pool = some a.pool →
      a.pool < heap.length →
      a.actual_alloc = some s →
      dropAlloc heap a = some heap' →
      (∃ a2 heap2, LocalPool.alloc envs heap' fsp.pool =
          some (.ok a2 heap2 fsp.pool)) ∧
      (∃ a2 heap2, LocalPool.alloc envs2 heap' fsp.clone.pool =
          some (.ok a2 heap2 fsp.clone.pool))) ∧
    (∀ envs heap r, LocalPool.alloc envs heap fsp.pool = some r →
      fsp.clone.pool.next_capacity = fsp.pool.next_capacity ∧
      fsp.clone.pool.current_pool = fsp.pool.current_pool) := by
  refine ⟨⟨rfl, rfl, rfl⟩, ?_, fun _ _ _ _ => ⟨rfl, rfl⟩⟩
  intro heap a s heap' envs envs2 hcur hlt hs hd
  constructor
  · exact alloc_after_release_to_current heap a s heap' fsp.pool envs hs hd hcur hlt
  · exact alloc_after_release_to_current heap a s heap' fsp.clone.pool envs2
      hs hd hcur hlt

theorem clone_shares_chunk_witness :
    (FixedSizeDescriptorSetsPool.mk 42 (LocalPool.mk (some 0) 6)).pool.current_pool
        = some (LocalPoolAlloc.mk 0 (some (UnsafeDescriptorSet.mk 0 0))).pool ∧
    (LocalPoolAlloc.mk 0 (some (UnsafeDescriptorSet.mk 0 0))).pool <
      ([LocalPoolInner.mk 3 []] : Heap).length ∧
    (∃ a2 heap2,
        LocalPool.alloc [] [LocalPoolInner.mk 3 [UnsafeDescriptorSet.mk 0 0]]
          (FixedSizeDescriptorSetsPool.mk 42 (LocalPool.mk (some 0) 6)).pool =
        some (.ok a2 heap2
          (FixedSizeDescriptorSetsPool.mk 42 (LocalPool.mk (some 0) 6)).pool)) :=
  ⟨by decide, by decide,
    ((clone_shares_chunk
        (FixedSizeDescriptorSetsPool.mk 42 (LocalPool.mk (some 0) 6))).2.1
      [LocalPoolInner.mk 3 []]
      (LocalPoolAlloc.mk 0 (some (UnsafeDescriptorSet.mk 0 0)))
      (UnsafeDescriptorSet.mk 0 0)
      [LocalPoolInner.mk 3 [UnsafeDescriptorSet.mk 0 0]] [] []
      (by decide) (by decide) (by decide) (by decide)).1⟩

end Vulkano
